import Mathlib

/-!
# Verification of `mapwise` (`keyBy` / `groupBy`)

Shallow embedding of the executable logic of `src/keyBy.ts` and the
`groupBy` implementation re-exported from `src/index.ts`.  JavaScript
values are modelled by the first-order type `JSVal`; objects and arrays
carry a numeric identity `oid` so that key comparison (JS `Map` uses
SameValueZero, i.e. reference equality on objects) is expressible.
Call arguments whose runtime *shape* the code inspects (`typeof`,
`!== null`, `'call' in obj`) are modelled by the type `Arg`.
The insertion-ordered JS `Map` is modelled as an association list in
insertion order, with `Map.get` / `Map.set` / `array.push` modelled by
`omapGet` / `omapSet` / `omapPush`.
-/

set_option autoImplicit false

namespace Mapwise

/-- A JavaScript runtime value, first-order fragment: `undefined`, `null`,
booleans, numbers (modelled as integers), strings, plain objects and
arrays.  Objects and arrays carry an identity `oid`; two object values
denote the same JS reference exactly when their `oid`s agree. -/
inductive JSVal where
  | vundef : JSVal
  | vnull : JSVal
  | vbool (b : Bool) : JSVal
  | vnum (n : Int) : JSVal
  | vstr (s : String) : JSVal
  | vobj (oid : Nat) (fields : List (String × JSVal)) : JSVal
  | varr (oid : Nat) (elems : List JSVal) : JSVal

namespace JSVal

/-- JS loose equality with `null` (`x == null`): true exactly for
`null` and `undefined`. -/
def isNullish : JSVal → Bool
  | vundef => true
  | vnull => true
  | _ => false

/-- SameValueZero key equality as used by JS `Map`: primitives compare by
value, objects and arrays by reference (`oid`). -/
def sameValueZero : JSVal → JSVal → Bool
  | vundef, vundef => true
  | vnull, vnull => true
  | vbool a, vbool b => a == b
  | vnum a, vnum b => a == b
  | vstr a, vstr b => a == b
  | vobj i _, vobj j _ => i == j
  | varr i _, varr j _ => i == j
  | _, _ => false

end JSVal

/-- The SameValueZero equivalence-class representative of a value: objects
and arrays are identified with their reference `oid`, primitives with
themselves.  `sameValueZero a b = true ↔ a.keyRep = b.keyRep`. -/
inductive KeyRep where
  | kundef : KeyRep
  | knull : KeyRep
  | kbool (b : Bool) : KeyRep
  | knum (n : Int) : KeyRep
  | kstr (s : String) : KeyRep
  | kobj (oid : Nat) : KeyRep
  | karr (oid : Nat) : KeyRep
deriving DecidableEq

def JSVal.keyRep : JSVal → KeyRep
  | .vundef => .kundef
  | .vnull => .knull
  | .vbool b => .kbool b
  | .vnum n => .knum n
  | .vstr s => .kstr s
  | .vobj i _ => .kobj i
  | .varr i _ => .karr i

theorem sameValueZero_iff_keyRep (a b : JSVal) :
    JSVal.sameValueZero a b = true ↔ a.keyRep = b.keyRep := by
  cases a <;> cases b <;>
    simp [JSVal.sameValueZero, JSVal.keyRep]

theorem sameValueZero_refl (a : JSVal) : JSVal.sameValueZero a a = true := by
  rw [sameValueZero_iff_keyRep]

theorem sameValueZero_symm {a b : JSVal}
    (h : JSVal.sameValueZero a b = true) : JSVal.sameValueZero b a = true := by
  rw [sameValueZero_iff_keyRep] at h ⊢
  exact h.symm

theorem sameValueZero_trans {a b c : JSVal}
    (h₁ : JSVal.sameValueZero a b = true)
    (h₂ : JSVal.sameValueZero b c = true) :
    JSVal.sameValueZero a c = true := by
  rw [sameValueZero_iff_keyRep] at h₁ h₂ ⊢
  exact h₁.trans h₂

/-- A positional call argument, classified by the runtime shape that the
implementations inspect (`typeof x`, `x !== null`, `'call' in x`):

* `omitted` — the argument was not supplied, i.e. it is `undefined`;
* `nul` — the literal `null` (note `typeof null === 'object'`);
* `fn f` — a function (`typeof === 'function'`), receiving `(item, index)`;
* `field s` — a primitive property name (`typeof` is not `'object'` or
  `'function'`); non-string primitives behave like their coerced string;
* `obj oid fields` — any non-null non-callable object (`typeof === 'object'`),
  including arrays and option records. -/
inductive Arg where
  | omitted : Arg
  | nul : Arg
  | fn (f : JSVal → Nat → JSVal) : Arg
  | field (s : String) : Arg
  | obj (oid : Nat) (fields : List (String × JSVal)) : Arg

/-- Test `typeof x === 'object' && x !== null` for a call argument. -/
def Arg.isNonNullObject : Arg → Bool
  | .obj _ _ => true
  | _ => false

/-- Test `'call' in x` for a non-null plain object (own properties; plain objects
inherit no `call` from `Object.prototype`). `false` on every other shape. -/
def Arg.hasCallProp : Arg → Bool
  | .obj _ fields => fields.any (fun p => p.1 == "call")
  | _ => false

/-- Test `arg == null` (loose equality) for a call argument: `undefined` or `null`. -/
def Arg.looseNull : Arg → Bool
  | .omitted => true
  | .nul => true
  | _ => false

/-- String coercion (`ToPropertyKey`) of an argument used as a property key
in `item?.[arg]`.  A plain object coerces to its default string form. -/
def Arg.toPropertyKey : Arg → String
  | .field s => s
  | .obj _ _ => "[object Object]"
  | .nul => "null"
  | .omitted => "undefined"
  | .fn _ => "function"

/-- The argument-resolution prologue shared verbatim by `keyBy`
(src/keyBy.ts lines 130-141) and `groupBy` (src/index.ts lines 137-148):

```
if (typeof valueTransformerOrOpts === 'object' &&
    valueTransformerOrOpts !== null &&
    !('call' in valueTransformerOrOpts)) { opts = valueTransformerOrOpts; }
else if (typeof maybeOpts === 'object' && maybeOpts !== null) {
  valueTransformer = valueTransformerOrOpts; opts = maybeOpts; }
else { valueTransformer = valueTransformerOrOpts; }
```

Returns `(valueTransformer, opts)`; `Arg.omitted` models the initial
`undefined` of `valueTransformer`, `none` the `undefined` of `opts`. -/
def resolveArgs (arg3 arg4 : Arg) : Arg × Option Arg :=
  if arg3.isNonNullObject && !arg3.hasCallProp then
    (Arg.omitted, some arg3)
  else if arg4.isNonNullObject then
    (arg3, some arg4)
  else
    (arg3, none)

/-- Reading `opts?.excludeNullish ?? false`, composed with the truthiness test the
`if (excludeNullish && ...)` gates apply: the effective boolean is the JS
truthiness of the `excludeNullish` property when present, `false` otherwise
(a nullish property value is falsy, matching `?? false`). -/
def JSVal.truthy : JSVal → Bool
  | .vundef => false
  | .vnull => false
  | .vbool b => b
  | .vnum n => n != 0
  | .vstr s => s != ""
  | .vobj _ _ => true
  | .varr _ _ => true

def optExcludeNullish (opts : Option Arg) : Bool :=
  match opts with
  | some (.obj _ fields) =>
    match fields.lookup "excludeNullish" with
    | some v => v.truthy
    | none => false
  | _ => false

/-- Optional-chaining property access `item?.[key]`: `undefined` on a
nullish item; named-field lookup on an object, `undefined` when absent;
`undefined` on remaining primitives (no prototype properties modelled). -/
def JSVal.optGet (item : JSVal) (key : String) : JSVal :=
  match item with
  | .vobj _ fields => (fields.lookup key).getD JSVal.vundef
  | _ => JSVal.vundef

/-- Key extraction (src/keyBy.ts lines 152-157, src/index.ts lines 159-164):
`typeof keyExtractorOrProp === 'function' ? keyExtractorOrProp(item, index)
: item?.[keyExtractorOrProp]`. -/
def computeKey (kd : Arg) (item : JSVal) (index : Nat) : JSVal :=
  match kd with
  | .fn f => f item index
  | other => item.optGet other.toPropertyKey

/-- Value extraction (src/keyBy.ts lines 163-170, src/index.ts lines
170-177): `valueTransformer == null ? item : typeof valueTransformer ===
'function' ? valueTransformer(item, index) : item?.[valueTransformer]`. -/
def computeValue (vd : Arg) (item : JSVal) (index : Nat) : JSVal :=
  if vd.looseNull then item
  else
    match vd with
    | .fn f => f item index
    | other => item.optGet other.toPropertyKey

/-- The body of the `forEach` callback up to (but excluding) the container
write, shared verbatim by both operations: the two `excludeNullish` early
returns and the key/value extraction.  `none` means the callback returned
without touching the container; `some (k, v)` is the pair handed to it. -/
def processItem (excl : Bool) (kd vd : Arg) (item : JSVal) (index : Nat) :
    Option (JSVal × JSVal) :=
  if excl && item.isNullish then none
  else
    let computedKey := computeKey kd item index
    if excl && computedKey.isNullish then none
    else some (computedKey, computeValue vd item index)

/-- A JS `Map` with values of type `α`: the association list of its entries
in insertion order.  Key identity is `sameValueZero`. -/
abbrev OMap (α : Type) := List (JSVal × α)

/-- Model of `Map.get`: the value stored under the first (and only) entry whose key
is SameValueZero-equal to `k`; `none` models `undefined`. -/
def omapGet {α : Type} (m : OMap α) (k : JSVal) : Option α :=
  match m with
  | [] => none
  | (k0, v0) :: rest =>
    if JSVal.sameValueZero k0 k then some v0 else omapGet rest k

/-- Model of `Map.set`: overwrite the value in place if the key is present (its
position is unchanged), otherwise append a new entry at the end. -/
def omapSet {α : Type} (m : OMap α) (k : JSVal) (v : α) : OMap α :=
  match m with
  | [] => [(k, v)]
  | (k0, v0) :: rest =>
    if JSVal.sameValueZero k0 k then (k0, v) :: rest
    else (k0, v0) :: omapSet rest k v

/-- Model of `arr.push(v)` on the array stored under key `k`: in-place append to
that entry's list; a no-op when the key is absent. -/
def omapPush (m : OMap (List JSVal)) (k : JSVal) (v : JSVal) :
    OMap (List JSVal) :=
  match m with
  | [] => []
  | (k0, vs) :: rest =>
    if JSVal.sameValueZero k0 k then (k0, vs ++ [v]) :: rest
    else (k0, vs) :: omapPush rest k v

/-- The keys of the container in iteration order. -/
def keysOf {α : Type} (m : OMap α) : List JSVal := m.map Prod.fst

/-- Membership test (`Map.has`-like) under SameValueZero. -/
def omapHasKey {α : Type} (m : OMap α) (k : JSVal) : Bool :=
  m.any (fun p => JSVal.sameValueZero p.1 k)

/-- The `forEach` loop of `keyBy` (src/keyBy.ts lines 147-174): per item
the shared gates/extraction (`processItem`), then
`result.set(computedKey, computedValue)`. -/
def keyByLoop (excl : Bool) (kd vd : Arg) :
    List JSVal → Nat → OMap JSVal → OMap JSVal
  | [], _, result => result
  | item :: rest, index, result =>
    match processItem excl kd vd item index with
    | none => keyByLoop excl kd vd rest (index + 1) result
    | some (k, v) => keyByLoop excl kd vd rest (index + 1) (omapSet result k v)

/-- The group-mode container write (src/index.ts lines 179-185):
`const arr = result.get(k); if (arr) { arr.push(v) } else
{ result.set(k, [v]) }` (any array is truthy, so the test is presence). -/
def groupWrite (m : OMap (List JSVal)) (k v : JSVal) : OMap (List JSVal) :=
  match omapGet m k with
  | some _ => omapPush m k v
  | none => omapSet m k [v]

/-- The `forEach` loop of `groupBy` (src/index.ts lines 154-186). -/
def groupByLoop (excl : Bool) (kd vd : Arg) :
    List JSVal → Nat → OMap (List JSVal) → OMap (List JSVal)
  | [], _, result => result
  | item :: rest, index, result =>
    match processItem excl kd vd item index with
    | none => groupByLoop excl kd vd rest (index + 1) result
    | some (k, v) => groupByLoop excl kd vd rest (index + 1) (groupWrite result k v)

/-- Operation `keyBy(items, arg2, arg3, arg4)` (src/keyBy.ts lines 123-177): resolve
the trailing arguments, read `opts?.excludeNullish ?? false`, then fold the
items with `Map.set`.  `(items as any[]).forEach` throws a `TypeError`
synchronously when `items` is not an array, before any item is processed;
the model returns `Except.error` with no partial container. -/
def keyBy (items : JSVal) (arg2 arg3 arg4 : Arg) :
    Except String (OMap JSVal) :=
  let resolved := resolveArgs arg3 arg4
  let excludeNullish := optExcludeNullish resolved.2
  match items with
  | .varr _ elems => .ok (keyByLoop excludeNullish arg2 resolved.1 elems 0 [])
  | _ => .error "TypeError: items.forEach is not a function"

/-- Operation `groupBy(items, arg2, arg3, arg4)` (src/index.ts lines 130-189): same
prologue as `keyBy`, then the group-mode fold. -/
def groupBy (items : JSVal) (arg2 arg3 arg4 : Arg) :
    Except String (OMap (List JSVal)) :=
  let resolved := resolveArgs arg3 arg4
  let excludeNullish := optExcludeNullish resolved.2
  match items with
  | .varr _ elems => .ok (groupByLoop excludeNullish arg2 resolved.1 elems 0 [])
  | _ => .error "TypeError: items.forEach is not a function"

/-- Holds exactly when a value is a JS array, i.e. has the native
`forEach` the implementations call. -/
def JSVal.isArr : JSVal → Bool
  | .varr _ _ => true
  | _ => false

def exceptOk {α : Type} : Except String α → Bool
  | .ok _ => true
  | .error _ => false

/-- The sequence of `(computedKey, computedValue)` pairs handed to the
container writes, in processing order: the items surviving both nullish
gates, keyed and valued by the shared extraction. -/
def admittedPairs (excl : Bool) (kd vd : Arg) :
    List JSVal → Nat → List (JSVal × JSVal)
  | [], _ => []
  | item :: rest, index =>
    match processItem excl kd vd item index with
    | none => admittedPairs excl kd vd rest (index + 1)
    | some p => p :: admittedPairs excl kd vd rest (index + 1)

/-- The computed values of the admitted pairs whose key is
SameValueZero-equal to `k`, in processing order. -/
def valsAt (ps : List (JSVal × JSVal)) (k : JSVal) : List JSVal :=
  (ps.filter (fun p => JSVal.sameValueZero p.1 k)).map Prod.snd

/-! ### Concrete sample data (used to instantiate the general theorems) -/

def person1 : JSVal := .vobj 1 [("id", .vnum 1), ("group", .vstr "admin")]

def person2 : JSVal := .vobj 2 [("id", .vnum 2), ("group", .vstr "user")]

def person3 : JSVal := .vobj 3 [("id", .vnum 3), ("group", .vstr "admin")]

def people : JSVal := .varr 10 [person1, person2, person3]

def peopleWithNullish : JSVal := .varr 11 [person1, .vnull, .vundef, person2]

def exclTrueOpts : Arg := .obj 20 [("excludeNullish", .vbool true)]

/-! ### Container lemmas -/

theorem omapGet_omapSet {α : Type} (m : OMap α) (k k' : JSVal) (v : α) :
    omapGet (omapSet m k v) k' =
      if JSVal.sameValueZero k k' then some v else omapGet m k' := by
  induction m with
  | nil => simp [omapSet, omapGet]
  | cons p rest ih =>
    obtain ⟨k0, v0⟩ := p
    simp only [omapSet]
    by_cases h0 : JSVal.sameValueZero k0 k = true
    · by_cases h1 : JSVal.sameValueZero k k' = true
      · simp [omapGet, h0, h1, sameValueZero_trans h0 h1]
      · have h2 : ¬ JSVal.sameValueZero k0 k' = true := fun hc =>
          h1 (sameValueZero_trans (sameValueZero_symm h0) hc)
        simp [omapGet, h0, h1, h2]
    · by_cases h1 : JSVal.sameValueZero k0 k' = true
      · have h2 : ¬ JSVal.sameValueZero k k' = true := fun hc =>
          h0 (sameValueZero_trans h1 (sameValueZero_symm hc))
        simp [omapGet, h0, h1, h2]
      · simp [omapGet, h0, h1, ih]

theorem omapGet_omapPush (m : OMap (List JSVal)) (k k' : JSVal) (v : JSVal)
    (vs : List JSVal) (hm : omapGet m k = some vs) :
    omapGet (omapPush m k v) k' =
      if JSVal.sameValueZero k k' then some (vs ++ [v]) else omapGet m k' := by
  induction m with
  | nil => simp [omapGet] at hm
  | cons p rest ih =>
    obtain ⟨k0, v0⟩ := p
    simp only [omapPush]
    by_cases h0 : JSVal.sameValueZero k0 k = true
    · simp only [omapGet, h0, if_true, Option.some.injEq] at hm
      subst hm
      by_cases h1 : JSVal.sameValueZero k k' = true
      · simp [omapGet, h0, h1, sameValueZero_trans h0 h1]
      · have h2 : ¬ JSVal.sameValueZero k0 k' = true := fun hc =>
          h1 (sameValueZero_trans (sameValueZero_symm h0) hc)
        simp [omapGet, h0, h1, h2]
    · simp only [omapGet, h0, if_false, Bool.false_eq_true] at hm
      by_cases h1 : JSVal.sameValueZero k0 k' = true
      · have h2 : ¬ JSVal.sameValueZero k k' = true := fun hc =>
          h0 (sameValueZero_trans h1 (sameValueZero_symm hc))
        simp [omapGet, h0, h1, h2]
      · simp [omapGet, h0, h1, ih hm]

theorem omapGet_groupWrite (m : OMap (List JSVal)) (k k' v : JSVal) :
    omapGet (groupWrite m k v) k' =
      if JSVal.sameValueZero k k' then some ((omapGet m k).getD [] ++ [v])
      else omapGet m k' := by
  unfold groupWrite
  cases hg : omapGet m k with
  | some vs => simpa [hg] using omapGet_omapPush m k k' v vs hg
  | none =>
    rw [omapGet_omapSet]
    by_cases h1 : JSVal.sameValueZero k k' = true <;> simp [h1, hg]

theorem omapHasKey_eq_keys {α : Type} (m : OMap α) (k : JSVal) :
    omapHasKey m k = (keysOf m).any (fun s => JSVal.sameValueZero s k) := by
  induction m with
  | nil => rfl
  | cons p rest ih =>
    simp only [omapHasKey, keysOf, List.map_cons, List.any_cons] at ih ⊢
    rw [ih]

theorem omapHasKey_eq_isSome {α : Type} (m : OMap α) (k : JSVal) :
    omapHasKey m k = (omapGet m k).isSome := by
  induction m with
  | nil => simp [omapHasKey, omapGet]
  | cons p rest ih =>
    obtain ⟨k0, v0⟩ := p
    by_cases h0 : JSVal.sameValueZero k0 k = true <;>
      simp [omapHasKey, omapGet, h0, ← ih]

theorem keysOf_omapSet {α : Type} (m : OMap α) (k : JSVal) (v : α) :
    keysOf (omapSet m k v) =
      if omapHasKey m k then keysOf m else keysOf m ++ [k] := by
  induction m with
  | nil => simp [omapSet, omapHasKey, keysOf]
  | cons p rest ih =>
    obtain ⟨k0, v0⟩ := p
    by_cases h0 : JSVal.sameValueZero k0 k = true
    · simp [omapSet, omapHasKey, keysOf, h0]
    · have hh : omapHasKey ((k0, v0) :: rest) k = omapHasKey rest k := by
        simp [omapHasKey, h0]
      have hset : omapSet ((k0, v0) :: rest) k v = (k0, v0) :: omapSet rest k v := by
        simp [omapSet, h0]
      rw [hset, hh]
      have hcons : keysOf ((k0, v0) :: omapSet rest k v) =
          k0 :: keysOf (omapSet rest k v) := rfl
      rw [hcons, ih]
      by_cases hrest : omapHasKey rest k = true <;> simp [hrest, keysOf]

theorem keysOf_omapPush (m : OMap (List JSVal)) (k v : JSVal) :
    keysOf (omapPush m k v) = keysOf m := by
  induction m with
  | nil => simp [omapPush]
  | cons p rest ih =>
    obtain ⟨k0, v0⟩ := p
    by_cases h0 : JSVal.sameValueZero k0 k = true
    · simp [omapPush, keysOf, h0]
    · simp only [omapPush, h0, Bool.false_eq_true, if_false]
      simp only [keysOf, List.map_cons] at ih ⊢
      rw [ih]

theorem keysOf_groupWrite (m : OMap (List JSVal)) (k v : JSVal) :
    keysOf (groupWrite m k v) =
      if omapHasKey m k then keysOf m else keysOf m ++ [k] := by
  unfold groupWrite
  cases hg : omapGet m k with
  | some vs =>
    have : omapHasKey m k = true := by simp [omapHasKey_eq_isSome, hg]
    simp [this, keysOf_omapPush]
  | none =>
    have : omapHasKey m k = false := by simp [omapHasKey_eq_isSome, hg]
    simp [this, keysOf_omapSet]

/-! ### Fold characterizations -/

theorem getLast?_cons_getD {α : Type} (a : α) (l : List α) :
    (a :: l).getLast? = some (l.getLast?.getD a) := by
  induction l generalizing a with
  | nil => simp
  | cons b t ih => rw [List.getLast?_cons_cons, ih b]; simp

theorem keyByLoop_eq_foldl (excl : Bool) (kd vd : Arg) (elems : List JSVal)
    (index : Nat) (m : OMap JSVal) :
    keyByLoop excl kd vd elems index m =
      (admittedPairs excl kd vd elems index).foldl
        (fun m p => omapSet m p.1 p.2) m := by
  induction elems generalizing index m with
  | nil => rfl
  | cons item rest ih =>
    simp only [keyByLoop, admittedPairs]
    cases processItem excl kd vd item index with
    | none => exact ih _ _
    | some p => obtain ⟨k, v⟩ := p; simp [List.foldl_cons, ih]

theorem groupByLoop_eq_foldl (excl : Bool) (kd vd : Arg) (elems : List JSVal)
    (index : Nat) (m : OMap (List JSVal)) :
    groupByLoop excl kd vd elems index m =
      (admittedPairs excl kd vd elems index).foldl
        (fun m p => groupWrite m p.1 p.2) m := by
  induction elems generalizing index m with
  | nil => rfl
  | cons item rest ih =>
    simp only [groupByLoop, admittedPairs]
    cases processItem excl kd vd item index with
    | none => exact ih _ _
    | some p => obtain ⟨k, v⟩ := p; simp [List.foldl_cons, ih]

theorem omapGet_setFold (ps : List (JSVal × JSVal)) (m : OMap JSVal)
    (k : JSVal) :
    omapGet (ps.foldl (fun m p => omapSet m p.1 p.2) m) k =
      ((valsAt ps k).getLast?).or (omapGet m k) := by
  induction ps generalizing m with
  | nil => simp [valsAt]
  | cons p rest ih =>
    obtain ⟨k0, v0⟩ := p
    simp only [List.foldl_cons, ih, valsAt, List.filter_cons]
    by_cases h0 : JSVal.sameValueZero k0 k = true
    · simp only [h0, if_true, List.map_cons, getLast?_cons_getD]
      rw [omapGet_omapSet]
      simp only [h0, if_true]
      cases hl : (List.map Prod.snd
          (List.filter (fun p => JSVal.sameValueZero p.1 k) rest)).getLast? <;>
        simp [hl, valsAt, Option.or]
    · simp only [h0, Bool.false_eq_true, if_false]
      rw [omapGet_omapSet]
      simp [h0, valsAt]

theorem omapGet_congr {α : Type} (m : OMap α) {k k' : JSVal}
    (h : JSVal.sameValueZero k k' = true) : omapGet m k = omapGet m k' := by
  induction m with
  | nil => rfl
  | cons p rest ih =>
    obtain ⟨k0, v0⟩ := p
    simp only [omapGet]
    by_cases hq : JSVal.sameValueZero k0 k = true
    · rw [if_pos hq, if_pos (sameValueZero_trans hq h)]
    · rw [if_neg hq,
        if_neg (fun hc => hq (sameValueZero_trans hc (sameValueZero_symm h))), ih]

theorem omapGet_groupFold (ps : List (JSVal × JSVal)) (m : OMap (List JSVal))
    (k : JSVal) :
    omapGet (ps.foldl (fun m p => groupWrite m p.1 p.2) m) k =
      match omapGet m k with
      | some old => some (old ++ valsAt ps k)
      | none =>
        if (valsAt ps k).isEmpty then none else some (valsAt ps k) := by
  induction ps generalizing m with
  | nil => cases hg : omapGet m k <;> simp [valsAt, hg]
  | cons p rest ih =>
    obtain ⟨k0, v0⟩ := p
    rw [List.foldl_cons, ih]
    by_cases h0 : JSVal.sameValueZero k0 k = true
    · have hvals : valsAt ((k0, v0) :: rest) k = v0 :: valsAt rest k := by
        simp [valsAt, List.filter_cons, h0]
      have hget : omapGet (groupWrite m k0 v0) k =
          some ((omapGet m k).getD [] ++ [v0]) := by
        rw [omapGet_groupWrite, if_pos h0, omapGet_congr m h0]
      rw [hget, hvals]
      cases hg : omapGet m k with
      | some old => simp [hg]
      | none => simp [hg]
    · have hvals : valsAt ((k0, v0) :: rest) k = valsAt rest k := by
        simp [valsAt, List.filter_cons, h0]
      have hget : omapGet (groupWrite m k0 v0) k = omapGet m k := by
        rw [omapGet_groupWrite, if_neg h0]
      rw [hget, hvals]

/-- The keys of `ks` not yet among `seen`, in first-occurrence order:
the order in which the container allocates new slots. -/
def newKeys (seen : List JSVal) : List JSVal → List JSVal
  | [] => []
  | k :: ks =>
    if seen.any (fun s => JSVal.sameValueZero s k) then newKeys seen ks
    else k :: newKeys (seen ++ [k]) ks

/-- Any fold whose per-pair write preserves existing key positions and
appends unseen keys at the end yields the first-occurrence key order. -/
theorem keysOf_fold_write {α β : Type} (w : OMap α → JSVal → β → OMap α)
    (hw : ∀ m k v, keysOf (w m k v) =
      if omapHasKey m k then keysOf m else keysOf m ++ [k])
    (ps : List (JSVal × β)) (m : OMap α) :
    keysOf (ps.foldl (fun m p => w m p.1 p.2) m) =
      keysOf m ++ newKeys (keysOf m) (ps.map Prod.fst) := by
  induction ps generalizing m with
  | nil => simp [newKeys]
  | cons p rest ih =>
    obtain ⟨k0, v0⟩ := p
    rw [List.foldl_cons, ih, hw, List.map_cons]
    by_cases h0 : omapHasKey m k0 = true
    · rw [if_pos h0]
      have : (keysOf m).any (fun s => JSVal.sameValueZero s k0) = true := by
        rw [← omapHasKey_eq_keys]; exact h0
      simp [newKeys, this]
    · rw [if_neg h0]
      have : (keysOf m).any (fun s => JSVal.sameValueZero s k0) = false := by
        rw [← omapHasKey_eq_keys]; simpa using h0
      simp [newKeys, this]

theorem keysOf_setFold (ps : List (JSVal × JSVal)) (m : OMap JSVal) :
    keysOf (ps.foldl (fun m p => omapSet m p.1 p.2) m) =
      keysOf m ++ newKeys (keysOf m) (ps.map Prod.fst) :=
  keysOf_fold_write (fun m k v => omapSet m k v)
    (fun m k v => keysOf_omapSet m k v) ps m

theorem keysOf_groupFold (ps : List (JSVal × JSVal)) (m : OMap (List JSVal)) :
    keysOf (ps.foldl (fun m p => groupWrite m p.1 p.2) m) =
      keysOf m ++ newKeys (keysOf m) (ps.map Prod.fst) :=
  keysOf_fold_write (fun m k v => groupWrite m k v)
    (fun m k v => keysOf_groupWrite m k v) ps m

/-! ### Gate and monotonicity lemmas -/

theorem processItem_item_gate (kd vd : Arg) (item : JSVal) (index : Nat)
    (h : item.isNullish = true) :
    processItem true kd vd item index = none := by
  simp [processItem, h]

theorem processItem_key_gate (kd vd : Arg) (item : JSVal) (index : Nat)
    (h1 : item.isNullish = false)
    (h2 : (computeKey kd item index).isNullish = true) :
    processItem true kd vd item index = none := by
  simp [processItem, h1, h2]

theorem processItem_admitted (kd vd : Arg) (item : JSVal) (index : Nat)
    (h1 : item.isNullish = false)
    (h2 : (computeKey kd item index).isNullish = false) :
    processItem true kd vd item index =
      some (computeKey kd item index, computeValue vd item index) := by
  simp [processItem, h1, h2]

theorem processItem_no_policy (kd vd : Arg) (item : JSVal) (index : Nat) :
    processItem false kd vd item index =
      some (computeKey kd item index, computeValue vd item index) := by
  simp [processItem]

theorem omapHasKey_omapSet_self {α : Type} (m : OMap α) (k : JSVal) (v : α) :
    omapHasKey (omapSet m k v) k = true := by
  rw [omapHasKey_eq_isSome, omapGet_omapSet, if_pos (sameValueZero_refl k)]
  rfl

theorem omapHasKey_groupWrite_self (m : OMap (List JSVal)) (k v : JSVal) :
    omapHasKey (groupWrite m k v) k = true := by
  rw [omapHasKey_eq_isSome, omapGet_groupWrite, if_pos (sameValueZero_refl k)]
  rfl

theorem omapHasKey_setFold_mono (ps : List (JSVal × JSVal)) (m : OMap JSVal)
    (k : JSVal) (h : omapHasKey m k = true) :
    omapHasKey (ps.foldl (fun m p => omapSet m p.1 p.2) m) k = true := by
  rw [omapHasKey_eq_isSome] at h ⊢
  rw [omapGet_setFold]
  cases hv : (valsAt ps k).getLast? <;> cases hg : omapGet m k <;>
    simp_all [Option.or]

theorem omapHasKey_groupFold_mono (ps : List (JSVal × JSVal))
    (m : OMap (List JSVal)) (k : JSVal) (h : omapHasKey m k = true) :
    omapHasKey (ps.foldl (fun m p => groupWrite m p.1 p.2) m) k = true := by
  rw [omapHasKey_eq_isSome] at h ⊢
  rw [omapGet_groupFold]
  cases hg : omapGet m k <;> simp_all

theorem admittedPairs_no_policy_length (kd vd : Arg) (elems : List JSVal)
    (index : Nat) :
    (admittedPairs false kd vd elems index).length = elems.length := by
  induction elems generalizing index with
  | nil => rfl
  | cons item rest ih =>
    simp [admittedPairs, processItem_no_policy, ih]

theorem newKeys_not_seen (l seen : List JSVal) (x : JSVal) (hx : x ∈ newKeys seen l)
    (s : JSVal) (hs : s ∈ seen) : JSVal.sameValueZero s x = false := by
  induction l generalizing seen with
  | nil => simp [newKeys] at hx
  | cons k ks ih =>
    by_cases hk : seen.any (fun s => JSVal.sameValueZero s k) = true
    · exact ih seen (by simpa [newKeys, hk] using hx) hs
    · rw [newKeys, if_neg hk] at hx
      rcases List.mem_cons.mp hx with rfl | hx'
      · rcases List.any_eq_false.mp (by simpa using hk) s hs with hfalse
        simpa using hfalse
      · exact ih (seen ++ [k]) hx' (List.mem_append_left _ hs)

theorem newKeys_pairwise (l seen : List JSVal) :
    List.Pairwise (fun a b => JSVal.sameValueZero a b = false) (newKeys seen l) := by
  induction l generalizing seen with
  | nil => simp [newKeys]
  | cons k ks ih =>
    by_cases hk : seen.any (fun s => JSVal.sameValueZero s k) = true
    · simpa [newKeys, hk] using ih seen
    · rw [newKeys, if_neg hk]
      refine List.Pairwise.cons (fun x hx => ?_) (ih (seen ++ [k]))
      exact newKeys_not_seen ks (seen ++ [k]) x hx k
        (List.mem_append_right _ (List.mem_singleton_self k))

/-! ### Claim theorems -/

/-- C1: for every input sequence, key descriptor, optional value descriptor
and options, `keyBy` and `groupBy` called with the same arguments produce
containers with the same keys (even in the same iteration order), and for
every key the single value stored by `keyBy` is the last element of the
list stored by `groupBy` under that key (both are absent for keys missing
from both). -/
theorem keyBy_agrees_with_groupBy (items : JSVal) (kd arg3 arg4 : Arg)
    (m : OMap JSVal) (g : OMap (List JSVal))
    (hk : keyBy items kd arg3 arg4 = .ok m)
    (hg : groupBy items kd arg3 arg4 = .ok g) :
    keysOf m = keysOf g ∧
      ∀ k, omapGet m k = (omapGet g k).bind List.getLast? := by
  cases items with
  | varr oid elems =>
    simp only [keyBy, Except.ok.injEq] at hk
    simp only [groupBy, Except.ok.injEq] at hg
    subst hk; subst hg
    rw [keyByLoop_eq_foldl, groupByLoop_eq_foldl]
    constructor
    · rw [keysOf_setFold, keysOf_groupFold]; simp [keysOf]
    · intro k
      rw [omapGet_setFold, omapGet_groupFold]
      cases hv : valsAt (admittedPairs
          (optExcludeNullish (resolveArgs arg3 arg4).2) kd
          (resolveArgs arg3 arg4).1 elems 0) k with
      | nil => simp [omapGet, Option.or]
      | cons a t => simp [omapGet, Option.or, getLast?_cons_getD]
  | vundef => cases hk
  | vnull => cases hk
  | vbool b => cases hk
  | vnum n => cases hk
  | vstr s => cases hk
  | vobj oid fields => cases hk

theorem keyBy_agrees_with_groupBy_witness :
    keysOf (keyByLoop false (Arg.field "group") Arg.omitted
        [person1, person2, person3] 0 []) =
      keysOf (groupByLoop false (Arg.field "group") Arg.omitted
        [person1, person2, person3] 0 []) ∧
    omapGet (keyByLoop false (Arg.field "group") Arg.omitted
        [person1, person2, person3] 0 []) (JSVal.vstr "admin") =
      (omapGet (groupByLoop false (Arg.field "group") Arg.omitted
        [person1, person2, person3] 0 []) (JSVal.vstr "admin")).bind
        List.getLast? :=
  ⟨(keyBy_agrees_with_groupBy people (Arg.field "group") Arg.omitted
      Arg.omitted _ _ rfl rfl).1,
   (keyBy_agrees_with_groupBy people (Arg.field "group") Arg.omitted
      Arg.omitted _ _ rfl rfl).2 (JSVal.vstr "admin")⟩

/-- C2 (counterexample): a four-argument call whose `arg3` is a non-null
object without a `call` property is NOT resolved as claimed.  Here `arg3`
is `{excludeNullish: true}` and `arg4` is `{}`: the resolver takes `arg3`
itself as the options object (leaving no value descriptor) and ignores
`arg4`, instead of treating `arg3` as the value descriptor and `arg4` as
the options object. -/
theorem resolveArgs_fourth_argument_counterexample :
    ¬ (resolveArgs exclTrueOpts (Arg.obj 21 []) =
        (exclTrueOpts, some (Arg.obj 21 []))) := by
  intro h
  simp [resolveArgs, exclTrueOpts, Arg.isNonNullObject, Arg.hasCallProp] at h

/-- C2 (amended): for a call supplying a non-null object `arg4`, *provided*
`arg3` is not itself a non-null object lacking a `call` property (i.e.
`arg3` is callable, a field name, nullish, or an object with a `call`
property), the resolver treats `arg3` as the value descriptor and `arg4`
as the options object.  When `arg3` is a non-null `call`-free object,
`arg3` is taken as the options object and `arg4` is ignored. -/
theorem resolveArgs_fourth_argument (arg3 arg4 : Arg)
    (h4 : arg4.isNonNullObject = true)
    (h3 : ¬ (arg3.isNonNullObject = true ∧ arg3.hasCallProp = false)) :
    resolveArgs arg3 arg4 = (arg3, some arg4) := by
  have hcond : (arg3.isNonNullObject && !arg3.hasCallProp) = false := by
    cases hno : arg3.isNonNullObject <;> cases hcp : arg3.hasCallProp <;>
      simp_all
  simp [resolveArgs, hcond, h4]

theorem resolveArgs_fourth_argument_witness :
    resolveArgs (Arg.field "name") exclTrueOpts =
      (Arg.field "name", some exclTrueOpts) :=
  resolveArgs_fourth_argument (Arg.field "name") exclTrueOpts (by decide)
    (by decide)

/-- C9: for a non-null object passed as the third argument, the resolver
classifies it as the options object (no value descriptor is set) exactly
when it has no property named `call`; a non-null, non-callable object
possessing a `call` property is instead kept as the value descriptor. -/
theorem resolveArgs_call_sniffing (arg3 arg4 : Arg)
    (h3 : arg3.isNonNullObject = true) :
    ((resolveArgs arg3 arg4 = (Arg.omitted, some arg3)) ↔
      arg3.hasCallProp = false) ∧
    (arg3.hasCallProp = true → (resolveArgs arg3 arg4).1 = arg3) := by
  cases arg3 with
  | omitted => cases h3
  | nul => cases h3
  | fn f => cases h3
  | field s => cases h3
  | obj oid fields =>
    by_cases hc : Arg.hasCallProp (.obj oid fields) = true
    · constructor
      · constructor
        · intro h
          by_cases h4 : Arg.isNonNullObject arg4 = true <;>
            simp [resolveArgs, h3, hc, h4] at h
        · intro h; rw [hc] at h; cases h
      · intro _
        by_cases h4 : Arg.isNonNullObject arg4 = true <;>
          simp [resolveArgs, h3, hc, h4]
    · have hc' : Arg.hasCallProp (.obj oid fields) = false := by
        simpa using hc
      constructor
      · simp [resolveArgs, h3, hc']
      · intro h; rw [hc'] at h; cases h

theorem resolveArgs_call_sniffing_witness :
    ((resolveArgs exclTrueOpts Arg.omitted =
        (Arg.omitted, some exclTrueOpts)) ↔
      exclTrueOpts.hasCallProp = false) ∧
    (exclTrueOpts.hasCallProp = true →
      (resolveArgs exclTrueOpts Arg.omitted).1 = exclTrueOpts) :=
  resolveArgs_call_sniffing exclTrueOpts Arg.omitted (by decide)

/-- C3: with `excludeNullish = true`, in both operations: a nullish item is
skipped before any extraction (the loop equation holds uniformly in `kd`
and `vd`, so neither descriptor is consulted, and no container write
happens); an admitted item whose computed key is nullish is skipped after
key extraction (again uniformly in `vd`); and an admitted item with a
non-nullish key is written to the container with no condition whatsoever
on its computed value — a nullish computed value is still stored, and the
key is present in the final result. -/
theorem excludeNullish_checkpoints (kd vd : Arg) (item : JSVal)
    (rest : List JSVal) (index : Nat) (m : OMap JSVal)
    (g : OMap (List JSVal)) :
    (item.isNullish = true →
      keyByLoop true kd vd (item :: rest) index m =
        keyByLoop true kd vd rest (index + 1) m ∧
      groupByLoop true kd vd (item :: rest) index g =
        groupByLoop true kd vd rest (index + 1) g) ∧
    (item.isNullish = false →
      (computeKey kd item index).isNullish = true →
      keyByLoop true kd vd (item :: rest) index m =
        keyByLoop true kd vd rest (index + 1) m ∧
      groupByLoop true kd vd (item :: rest) index g =
        groupByLoop true kd vd rest (index + 1) g) ∧
    (item.isNullish = false →
      (computeKey kd item index).isNullish = false →
      keyByLoop true kd vd (item :: rest) index m =
        keyByLoop true kd vd rest (index + 1)
          (omapSet m (computeKey kd item index)
            (computeValue vd item index)) ∧
      groupByLoop true kd vd (item :: rest) index g =
        groupByLoop true kd vd rest (index + 1)
          (groupWrite g (computeKey kd item index)
            (computeValue vd item index)) ∧
      omapHasKey (keyByLoop true kd vd (item :: rest) index m)
        (computeKey kd item index) = true ∧
      omapHasKey (groupByLoop true kd vd (item :: rest) index g)
        (computeKey kd item index) = true) := by
  refine ⟨fun h => ?_, fun h1 h2 => ?_, fun h1 h2 => ?_⟩
  · rw [keyByLoop, groupByLoop, processItem_item_gate kd vd item index h]
    exact ⟨rfl, rfl⟩
  · rw [keyByLoop, groupByLoop, processItem_key_gate kd vd item index h1 h2]
    exact ⟨rfl, rfl⟩
  · have hstep : processItem true kd vd item index =
        some (computeKey kd item index, computeValue vd item index) :=
      processItem_admitted kd vd item index h1 h2
    have hkey : keyByLoop true kd vd (item :: rest) index m =
        keyByLoop true kd vd rest (index + 1)
          (omapSet m (computeKey kd item index)
            (computeValue vd item index)) := by
      rw [keyByLoop, hstep]
    have hgrp : groupByLoop true kd vd (item :: rest) index g =
        groupByLoop true kd vd rest (index + 1)
          (groupWrite g (computeKey kd item index)
            (computeValue vd item index)) := by
      rw [groupByLoop, hstep]
    refine ⟨hkey, hgrp, ?_, ?_⟩
    · rw [hkey, keyByLoop_eq_foldl]
      exact omapHasKey_setFold_mono _ _ _
        (omapHasKey_omapSet_self m _ _)
    · rw [hgrp, groupByLoop_eq_foldl]
      exact omapHasKey_groupFold_mono _ _ _
        (omapHasKey_groupWrite_self g _ _)

theorem excludeNullish_checkpoints_witness :
    (keyByLoop true (Arg.field "id") Arg.omitted
        (JSVal.vnull :: [person1]) 0 [] =
      keyByLoop true (Arg.field "id") Arg.omitted [person1] 1 []) ∧
    (keyByLoop true (Arg.field "missing") Arg.omitted
        (person1 :: []) 0 [] =
      keyByLoop true (Arg.field "missing") Arg.omitted [] 1 []) ∧
    omapHasKey (keyByLoop true (Arg.field "id") (Arg.field "missing")
        (person1 :: []) 0 [])
      (computeKey (Arg.field "id") person1 0) = true :=
  ⟨((excludeNullish_checkpoints (Arg.field "id") Arg.omitted JSVal.vnull
      [person1] 0 [] []).1 (by decide)).1,
   ((excludeNullish_checkpoints (Arg.field "missing") Arg.omitted person1
      [] 0 [] []).2.1 (by decide) (by decide)).1,
   ((excludeNullish_checkpoints (Arg.field "id") (Arg.field "missing")
      person1 [] 0 [] []).2.2 (by decide) (by decide)).2.2.1⟩

/-- C4: for every `groupBy` call and every key, the list stored under that
key is exactly `valsAt` — the computed values of the admitted items whose
computed key equals that key (`admittedPairs` filtered by SameValueZero on
the key), element for element in original sequence order; keys with no
admitted item are absent.  No reordering or deduplication occurs since the
left fold only ever appends. -/
theorem groupBy_group_contents (oid : Nat) (elems : List JSVal)
    (kd arg3 arg4 : Arg) (g : OMap (List JSVal))
    (hg : groupBy (.varr oid elems) kd arg3 arg4 = .ok g) (k : JSVal) :
    omapGet g k =
      if (valsAt (admittedPairs (optExcludeNullish (resolveArgs arg3 arg4).2)
          kd (resolveArgs arg3 arg4).1 elems 0) k).isEmpty then none
      else some (valsAt (admittedPairs
          (optExcludeNullish (resolveArgs arg3 arg4).2) kd
          (resolveArgs arg3 arg4).1 elems 0) k) := by
  simp only [groupBy, Except.ok.injEq] at hg
  subst hg
  rw [groupByLoop_eq_foldl, omapGet_groupFold]
  rfl

theorem groupBy_group_contents_witness :
    omapGet (groupByLoop false (Arg.field "group") Arg.omitted
        [person1, person2, person3] 0 []) (JSVal.vstr "admin") =
      if (valsAt (admittedPairs false (Arg.field "group") Arg.omitted
          [person1, person2, person3] 0) (JSVal.vstr "admin")).isEmpty
      then none
      else some (valsAt (admittedPairs false (Arg.field "group") Arg.omitted
          [person1, person2, person3] 0) (JSVal.vstr "admin")) :=
  groupBy_group_contents 10 [person1, person2, person3] (Arg.field "group")
    Arg.omitted Arg.omitted _ rfl (JSVal.vstr "admin")

/-- C5: in both operations each distinct computed key occupies exactly one
slot (the key list is pairwise SameValueZero-distinct), the key order is
first-occurrence order of the admitted keys (fixed at the key's first
write), a `Map.set` on an existing key rewrites the slot in place without
changing the key list at all, and in `keyBy` the stored value is the last
admitted value for that key (last write wins). -/
theorem key_slots_and_overwrite (excl : Bool) (kd vd : Arg)
    (elems : List JSVal) (k : JSVal) (m : OMap JSVal) (v : JSVal) :
    keysOf (keyByLoop excl kd vd elems 0 []) =
      newKeys [] ((admittedPairs excl kd vd elems 0).map Prod.fst) ∧
    keysOf (groupByLoop excl kd vd elems 0 []) =
      newKeys [] ((admittedPairs excl kd vd elems 0).map Prod.fst) ∧
    List.Pairwise (fun a b => JSVal.sameValueZero a b = false)
      (keysOf (keyByLoop excl kd vd elems 0 [])) ∧
    keysOf (omapSet m k v) =
      (if omapHasKey m k then keysOf m else keysOf m ++ [k]) ∧
    omapGet (keyByLoop excl kd vd elems 0 []) k =
      (valsAt (admittedPairs excl kd vd elems 0) k).getLast? := by
  have hkeys : keysOf (keyByLoop excl kd vd elems 0 []) =
      newKeys [] ((admittedPairs excl kd vd elems 0).map Prod.fst) := by
    rw [keyByLoop_eq_foldl, keysOf_setFold]; rfl
  refine ⟨hkeys, ?_, ?_, keysOf_omapSet m k v, ?_⟩
  · rw [groupByLoop_eq_foldl, keysOf_groupFold]; rfl
  · rw [hkeys]; exact newKeys_pairwise _ []
  · rw [keyByLoop_eq_foldl, omapGet_setFold]
    cases hv : (valsAt (admittedPairs excl kd vd elems 0) k).getLast? <;>
      simp [Option.or, omapGet]

/-- C6: with `excludeNullish` false (as it is when the option is omitted:
`optExcludeNullish none = false`), every item — nullish or not — passes
`processItem` and produces a container write: the admitted pairs are as
numerous as the items, each processed item's computed key — with no
restriction on its nullishness — ends up a literal key of the result of
either operation, and with no value descriptor (`valueTransformer` left
`undefined`, or `null`) the stored value is the item itself, however
nullish. -/
theorem default_policy_admits_all (kd vd : Arg) (item : JSVal)
    (rest elems : List JSVal) (index : Nat) (m : OMap JSVal)
    (g : OMap (List JSVal)) :
    processItem false kd vd item index =
      some (computeKey kd item index, computeValue vd item index) ∧
    (admittedPairs false kd vd elems index).length = elems.length ∧
    keyByLoop false kd vd (item :: rest) index m =
      keyByLoop false kd vd rest (index + 1)
        (omapSet m (computeKey kd item index)
          (computeValue vd item index)) ∧
    groupByLoop false kd vd (item :: rest) index g =
      groupByLoop false kd vd rest (index + 1)
        (groupWrite g (computeKey kd item index)
          (computeValue vd item index)) ∧
    omapHasKey (keyByLoop false kd vd (item :: rest) index m)
      (computeKey kd item index) = true ∧
    omapHasKey (groupByLoop false kd vd (item :: rest) index g)
      (computeKey kd item index) = true ∧
    computeValue Arg.omitted item index = item ∧
    computeValue Arg.nul item index = item ∧
    optExcludeNullish none = false := by
  have hstep := processItem_no_policy kd vd item index
  have hkey : keyByLoop false kd vd (item :: rest) index m =
      keyByLoop false kd vd rest (index + 1)
        (omapSet m (computeKey kd item index)
          (computeValue vd item index)) := by
    rw [keyByLoop, hstep]
  have hgrp : groupByLoop false kd vd (item :: rest) index g =
      groupByLoop false kd vd rest (index + 1)
        (groupWrite g (computeKey kd item index)
          (computeValue vd item index)) := by
    rw [groupByLoop, hstep]
  refine ⟨hstep, admittedPairs_no_policy_length kd vd elems index,
    hkey, hgrp, ?_, ?_, rfl, rfl, rfl⟩
  · rw [hkey, keyByLoop_eq_foldl]
    exact omapHasKey_setFold_mono _ _ _ (omapHasKey_omapSet_self m _ _)
  · rw [hgrp, groupByLoop_eq_foldl]
    exact omapHasKey_groupFold_mono _ _ _ (omapHasKey_groupWrite_self g _ _)

/-- C7: a call whose `items` is not an array fails (the `TypeError` from
`(items as any[]).forEach` is raised before any item is processed, and the
model returns an error carrying no partial container), and a call on any
array never fails — `exceptOk` coincides exactly with `isArr` for every
argument shape, so nullish items, keys and values are data, never faults,
under every policy. -/
theorem invalid_items_is_the_only_fault (items : JSVal) (kd arg3 arg4 : Arg) :
    exceptOk (keyBy items kd arg3 arg4) = items.isArr ∧
    exceptOk (groupBy items kd arg3 arg4) = items.isArr := by
  cases items <;> exact ⟨rfl, rfl⟩

/-- C8: applying a field-name descriptor to a nullish item yields
`undefined` (optional chaining, no error) for both the key and the value
extraction; and since the extractors are total, `keyBy` and `groupBy`
succeed on every array for every descriptor shape (compute functions are
modelled as total Lean functions, i.e. non-throwing). -/
theorem nullish_item_field_access_is_safe (s : String) (item : JSVal)
    (index : Nat) (oid : Nat) (elems : List JSVal) (kd arg3 arg4 : Arg) :
    (item.isNullish = true →
      computeKey (Arg.field s) item index = JSVal.vundef ∧
      computeValue (Arg.field s) item index = JSVal.vundef) ∧
    exceptOk (keyBy (.varr oid elems) kd arg3 arg4) = true ∧
    exceptOk (groupBy (.varr oid elems) kd arg3 arg4) = true := by
  refine ⟨fun h => ?_, rfl, rfl⟩
  cases item <;> simp_all [computeKey, computeValue, JSVal.isNullish,
    JSVal.optGet, Arg.toPropertyKey, Arg.looseNull]

theorem nullish_item_field_access_is_safe_witness :
    (computeKey (Arg.field "id") JSVal.vnull 0 = JSVal.vundef ∧
      computeValue (Arg.field "id") JSVal.vnull 0 = JSVal.vundef) ∧
    exceptOk (keyBy peopleWithNullish (Arg.field "id") Arg.omitted
      Arg.omitted) = true ∧
    exceptOk (groupBy peopleWithNullish (Arg.field "id") Arg.omitted
      Arg.omitted) = true :=
  ⟨(nullish_item_field_access_is_safe "id" JSVal.vnull 0 11
      [person1, JSVal.vnull, JSVal.vundef, person2] (Arg.field "id")
      Arg.omitted Arg.omitted).1 (by decide),
   (nullish_item_field_access_is_safe "id" JSVal.vnull 0 11
      [person1, JSVal.vnull, JSVal.vundef, person2] (Arg.field "id")
      Arg.omitted Arg.omitted).2⟩

/-- C10: every list stored in a `groupBy` result is non-empty — a key is
only ever inserted together with its first value (`result.set(k, [v])`)
and existing lists only grow by `push`. -/
theorem groupBy_lists_nonempty (items : JSVal) (kd arg3 arg4 : Arg)
    (g : OMap (List JSVal)) (k : JSVal) (vs : List JSVal)
    (hg : groupBy items kd arg3 arg4 = .ok g)
    (h : omapGet g k = some vs) : vs ≠ [] := by
  cases items with
  | varr oid elems =>
    simp only [groupBy, Except.ok.injEq] at hg
    subst hg
    rw [groupByLoop_eq_foldl, omapGet_groupFold] at h
    intro hnil
    subst hnil
    revert h
    cases hv : (valsAt (admittedPairs
        (optExcludeNullish (resolveArgs arg3 arg4).2) kd
        (resolveArgs arg3 arg4).1 elems 0) k).isEmpty <;>
      simp [omapGet, hv]
    intro hcontr
    exact absurd (hcontr ▸ hv) (by simp)
  | vundef => cases hg
  | vnull => cases hg
  | vbool b => cases hg
  | vnum n => cases hg
  | vstr s => cases hg
  | vobj oid fields => cases hg

theorem groupBy_lists_nonempty_witness :
    omapGet (groupByLoop false (Arg.field "group") Arg.omitted
        [person1, person2, person3] 0 []) (JSVal.vstr "user") =
      some [person2] ∧
    ([person2] : List JSVal) ≠ [] :=
  ⟨rfl, groupBy_lists_nonempty people (Arg.field "group") Arg.omitted
    Arg.omitted _ (JSVal.vstr "user") [person2] rfl rfl⟩

end Mapwise
